import Mathlib

/-!
Verification of the `normalize` function from
`src/python/src/example_module.py` of the ReplyStack repository.

Numbers are modelled as exact rationals (`ℚ`), matching the spec's
"real numbers" reading under exact arithmetic.  Python's `min(values)`
and `max(values)` on a non-empty list `v :: vs` are the folds of the
binary `min` / `max` over the remaining elements starting from `v`.
-/

namespace ReplyStack

/-- Shallow embedding of `normalize` from `src/python/src/example_module.py`:
  if not values: return []
  min_val = min(values); max_val = max(values)
  if max_val == min_val: return [0.0 for _ in values]
  span = max_val - min_val
  return [(v - min_val) / span for v in values] -/
def normalize : List ℚ → List ℚ
  | [] => []
  | v :: vs =>
    let min_val := vs.foldl min v
    let max_val := vs.foldl max v
    if max_val = min_val then
      (v :: vs).map (fun _ => (0 : ℚ))
    else
      let span := max_val - min_val
      (v :: vs).map (fun x => (x - min_val) / span)

/-- Division that signals failure on a zero divisor, modelling Python's
`ZeroDivisionError`. -/
def divChecked (a b : ℚ) : Option ℚ :=
  if b = 0 then none else some (a / b)

/-- The list comprehension `[(v - min_val) / span for v in values]` with each
division checked: any zero divisor aborts the whole computation. -/
def mapDivChecked (min_val span : ℚ) : List ℚ → Option (List ℚ)
  | [] => some []
  | x :: xs =>
    match divChecked (x - min_val) span, mapDivChecked min_val span xs with
    | some y, some ys => some (y :: ys)
    | _, _ => none

/-- The embedding of `normalize` in which the division may fail, used to show
the divide-by-zero branch is unreachable. -/
def normalizeChecked : List ℚ → Option (List ℚ)
  | [] => some []
  | v :: vs =>
    let min_val := vs.foldl min v
    let max_val := vs.foldl max v
    if max_val = min_val then
      some ((v :: vs).map (fun _ => (0 : ℚ)))
    else
      let span := max_val - min_val
      mapDivChecked min_val span (v :: vs)

/-! ### Fold lemmas for Python `min` / `max` -/

lemma foldl_min_le_init (vs : List ℚ) (v : ℚ) : vs.foldl min v ≤ v := by
  induction vs generalizing v with
  | nil => exact le_refl v
  | cons a t ih =>
    calc t.foldl min (min v a) ≤ min v a := ih (min v a)
      _ ≤ v := min_le_left v a

lemma foldl_min_le_mem (vs : List ℚ) (v : ℚ) {x : ℚ} (hx : x ∈ vs) :
    vs.foldl min v ≤ x := by
  induction vs generalizing v with
  | nil => cases hx
  | cons a t ih =>
    rcases List.mem_cons.mp hx with h | h
    · subst h
      calc t.foldl min (min v x) ≤ min v x := foldl_min_le_init t (min v x)
        _ ≤ x := min_le_right v x
    · exact ih (min v a) h

lemma le_foldl_max_init (vs : List ℚ) (v : ℚ) : v ≤ vs.foldl max v := by
  induction vs generalizing v with
  | nil => exact le_refl v
  | cons a t ih =>
    calc v ≤ max v a := le_max_left v a
      _ ≤ t.foldl max (max v a) := ih (max v a)

lemma le_foldl_max_mem (vs : List ℚ) (v : ℚ) {x : ℚ} (hx : x ∈ vs) :
    x ≤ vs.foldl max v := by
  induction vs generalizing v with
  | nil => cases hx
  | cons a t ih =>
    rcases List.mem_cons.mp hx with h | h
    · subst h
      calc x ≤ max v x := le_max_right v x
        _ ≤ t.foldl max (max v x) := le_foldl_max_init t (max v x)
    · exact ih (max v a) h

lemma foldl_min_le_foldl_max (vs : List ℚ) (v : ℚ) :
    vs.foldl min v ≤ vs.foldl max v :=
  le_trans (foldl_min_le_init vs v) (le_foldl_max_init vs v)

lemma foldl_min_of_all_eq (vs : List ℚ) (v : ℚ) (h : ∀ x ∈ vs, x = v) :
    vs.foldl min v = v := by
  induction vs with
  | nil => rfl
  | cons a t ih =>
    have ha : a = v := h a (List.mem_cons_self a t)
    subst ha
    simp only [List.foldl_cons, min_self]
    exact ih (fun x hx => h x (List.mem_cons_of_mem a hx))

lemma foldl_max_of_all_eq (vs : List ℚ) (v : ℚ) (h : ∀ x ∈ vs, x = v) :
    vs.foldl max v = v := by
  induction vs with
  | nil => rfl
  | cons a t ih =>
    have ha : a = v := h a (List.mem_cons_self a t)
    subst ha
    simp only [List.foldl_cons, max_self]
    exact ih (fun x hx => h x (List.mem_cons_of_mem a hx))

lemma map_foldl_min (f : ℚ → ℚ) (hf : ∀ a b, f (min a b) = min (f a) (f b))
    (vs : List ℚ) (v : ℚ) :
    (vs.map f).foldl min (f v) = f (vs.foldl min v) := by
  induction vs generalizing v with
  | nil => rfl
  | cons a t ih =>
    simp only [List.map_cons, List.foldl_cons]
    rw [← hf v a]
    exact ih (min v a)

lemma map_foldl_max (f : ℚ → ℚ) (hf : ∀ a b, f (max a b) = max (f a) (f b))
    (vs : List ℚ) (v : ℚ) :
    (vs.map f).foldl max (f v) = f (vs.foldl max v) := by
  induction vs generalizing v with
  | nil => rfl
  | cons a t ih =>
    simp only [List.map_cons, List.foldl_cons]
    rw [← hf v a]
    exact ih (max v a)

/-! ### Basic shape lemmas about `normalize` -/

lemma normalize_cons_spread (v : ℚ) (vs : List ℚ)
    (h : vs.foldl max v ≠ vs.foldl min v) :
    normalize (v :: vs) =
      (v :: vs).map
        (fun x => (x - vs.foldl min v) / (vs.foldl max v - vs.foldl min v)) := by
  simp only [normalize, if_neg h]

lemma normalize_cons_const (v : ℚ) (vs : List ℚ)
    (h : vs.foldl max v = vs.foldl min v) :
    normalize (v :: vs) = (v :: vs).map (fun _ => (0 : ℚ)) := by
  simp only [normalize, if_pos h]

/-! ### Shared positional lemma for the spread branch -/

lemma getElem?_normalize_spread (v : ℚ) (vs : List ℚ)
    (h : vs.foldl min v < vs.foldl max v)
    (i : ℕ) (hi : i < (v :: vs).length) :
    (normalize (v :: vs))[i]? =
      some (((v :: vs).get ⟨i, hi⟩ - vs.foldl min v) /
            (vs.foldl max v - vs.foldl min v)) := by
  rw [normalize_cons_spread v vs (ne_of_gt h), List.getElem?_map,
    List.getElem?_eq_getElem hi]
  rfl

/-! ### Claim theorems -/

/-- C1: for every non-empty input list whose maximum is strictly greater than
its minimum, `normalize` returns a list whose element at each position `i`
equals `(values[i] - min_val) / (max_val - min_val)`; in particular
`normalize [0, 5, 10] = [0, 1/2, 1]`. -/
theorem normalize_spread_elem (v : ℚ) (vs : List ℚ)
    (h : vs.foldl min v < vs.foldl max v)
    (i : ℕ) (hi : i < (v :: vs).length) :
    ((normalize (v :: vs))[i]? =
      some (((v :: vs).get ⟨i, hi⟩ - vs.foldl min v) /
            (vs.foldl max v - vs.foldl min v))) ∧
    normalize [0, 5, 10] = [0, 1/2, 1] :=
  ⟨getElem?_normalize_spread v vs h i hi, by norm_num [normalize]⟩

/-- Witness for C1 at input `[0, 5, 10]`, position 1. -/
theorem normalize_spread_elem_witness :
    ([5, 10] : List ℚ).foldl min 0 < ([5, 10] : List ℚ).foldl max 0 ∧
    ((normalize (0 :: [5, 10]))[1]? =
      some (((0 :: [5, 10] : List ℚ).get ⟨1, by decide⟩ -
              ([5, 10] : List ℚ).foldl min 0) /
            (([5, 10] : List ℚ).foldl max 0 - ([5, 10] : List ℚ).foldl min 0))) ∧
    normalize [0, 5, 10] = [0, 1/2, 1] :=
  ⟨by decide, normalize_spread_elem 0 [5, 10] (by decide) 1 (by decide)⟩

/-- C2: for every non-empty input list in which all elements are equal,
`normalize` returns a list of the same length as the input whose every
element is 0; in particular `normalize [3, 3, 3] = [0, 0, 0]`. -/
theorem normalize_constant (v : ℚ) (vs : List ℚ) (h : ∀ x ∈ vs, x = v) :
    normalize (v :: vs) = List.replicate (v :: vs).length (0 : ℚ) ∧
    normalize [3, 3, 3] = [0, 0, 0] := by
  constructor
  · rw [normalize_cons_const v vs
      (by rw [foldl_max_of_all_eq vs v h, foldl_min_of_all_eq vs v h])]
    simp [List.replicate_succ]
  · decide

/-- Witness for C2 at input `[3, 3, 3]`. -/
theorem normalize_constant_witness :
    (∀ x ∈ ([3, 3] : List ℚ), x = 3) ∧
    (normalize (3 :: [3, 3]) = List.replicate (3 :: [3, 3] : List ℚ).length 0 ∧
     normalize [3, 3, 3] = [0, 0, 0]) :=
  ⟨by decide, normalize_constant 3 [3, 3] (by decide)⟩

/-- C3: for the empty input list, `normalize` returns the empty list. -/
theorem normalize_nil : normalize [] = [] := rfl

/-- C5: for every input list, the list returned by `normalize` has exactly
the same length as the input list. -/
theorem normalize_length (values : List ℚ) :
    (normalize values).length = values.length := by
  cases values with
  | nil => rfl
  | cons v vs =>
    by_cases h : vs.foldl max v = vs.foldl min v
    · rw [normalize_cons_const v vs h, List.length_map]
    · rw [normalize_cons_spread v vs h, List.length_map]

lemma mapDivChecked_eq_some (min_val span : ℚ) (l : List ℚ) (h : span ≠ 0) :
    mapDivChecked min_val span l =
      some (l.map (fun x => (x - min_val) / span)) := by
  induction l with
  | nil => rfl
  | cons x xs ih =>
    simp only [mapDivChecked, divChecked, if_neg h, ih, List.map_cons]

/-- C4: `normalize` is total: on every input the checked embedding (in which
division by zero aborts) succeeds and returns exactly what `normalize`
returns, so the divide-by-zero branch is unreachable. -/
theorem normalizeChecked_total (values : List ℚ) :
    normalizeChecked values = some (normalize values) := by
  cases values with
  | nil => rfl
  | cons v vs =>
    by_cases h : vs.foldl max v = vs.foldl min v
    · simp only [normalizeChecked, normalize, if_pos h]
    · have hspan : vs.foldl max v - vs.foldl min v ≠ 0 := sub_ne_zero.mpr h
      simp only [normalizeChecked, normalize, if_neg h]
      exact mapDivChecked_eq_some _ _ _ hspan

/-- C6: for every non-empty input list with `max_val > min_val`, every input
element equal to `min_val` maps to exactly 0 in the output, and every input
element equal to `max_val` maps to exactly 1. -/
theorem normalize_endpoints (v : ℚ) (vs : List ℚ)
    (h : vs.foldl min v < vs.foldl max v)
    (i : ℕ) (hi : i < (v :: vs).length) :
    ((v :: vs).get ⟨i, hi⟩ = vs.foldl min v →
      (normalize (v :: vs))[i]? = some 0) ∧
    ((v :: vs).get ⟨i, hi⟩ = vs.foldl max v →
      (normalize (v :: vs))[i]? = some 1) := by
  have h1 := getElem?_normalize_spread v vs h i hi
  constructor
  · intro hmin
    rw [h1, hmin, sub_self, zero_div]
  · intro hmax
    rw [h1, hmax, div_self (sub_ne_zero.mpr (ne_of_gt h))]

/-- Witness for C6 at input `[0, 5, 10]`, positions 0 and 2. -/
theorem normalize_endpoints_witness :
    ([5, 10] : List ℚ).foldl min 0 < ([5, 10] : List ℚ).foldl max 0 ∧
    ((0 :: [5, 10] : List ℚ).get ⟨0, by decide⟩ = ([5, 10] : List ℚ).foldl min 0 ∧
      (normalize (0 :: [5, 10]))[0]? = some 0) ∧
    ((0 :: [5, 10] : List ℚ).get ⟨2, by decide⟩ = ([5, 10] : List ℚ).foldl max 0 ∧
      (normalize (0 :: [5, 10]))[2]? = some 1) := by
  have hmin : (0 :: [5, 10] : List ℚ).get ⟨0, by decide⟩ =
      ([5, 10] : List ℚ).foldl min 0 := by decide
  have hmax : (0 :: [5, 10] : List ℚ).get ⟨2, by decide⟩ =
      ([5, 10] : List ℚ).foldl max 0 := by decide
  exact ⟨by decide,
    ⟨hmin, (normalize_endpoints 0 [5, 10] (by decide) 0 (by decide)).1 hmin⟩,
    ⟨hmax, (normalize_endpoints 0 [5, 10] (by decide) 2 (by decide)).2 hmax⟩⟩

/-- C7: every element of the list returned by `normalize` lies in the closed
interval [0, 1] (over exact arithmetic). -/
theorem normalize_mem_unit_interval (values : List ℚ) {x : ℚ}
    (hx : x ∈ normalize values) : 0 ≤ x ∧ x ≤ 1 := by
  cases values with
  | nil => cases hx
  | cons v vs =>
    by_cases h : vs.foldl max v = vs.foldl min v
    · rw [normalize_cons_const v vs h] at hx
      rcases List.mem_map.mp hx with ⟨w, _, rfl⟩
      norm_num
    · rw [normalize_cons_spread v vs h] at hx
      rcases List.mem_map.mp hx with ⟨w, hw, rfl⟩
      have hmin : vs.foldl min v ≤ w := by
        rcases List.mem_cons.mp hw with rfl | hw'
        · exact foldl_min_le_init vs w
        · exact foldl_min_le_mem vs v hw'
      have hmax : w ≤ vs.foldl max v := by
        rcases List.mem_cons.mp hw with rfl | hw'
        · exact le_foldl_max_init vs w
        · exact le_foldl_max_mem vs v hw'
      have hlt : vs.foldl min v < vs.foldl max v :=
        lt_of_le_of_ne (foldl_min_le_foldl_max vs v) (Ne.symm h)
      have hspan : 0 < vs.foldl max v - vs.foldl min v := sub_pos.mpr hlt
      constructor
      · exact div_nonneg (sub_nonneg.mpr hmin) hspan.le
      · rw [div_le_one hspan]
        exact sub_le_sub_right hmax _

/-- Witness for C7: the element 1/2 of `normalize [0, 5, 10]` lies in [0, 1]. -/
theorem normalize_mem_unit_interval_witness :
    ((1 : ℚ)/2) ∈ normalize [0, 5, 10] ∧ (0 ≤ (1 : ℚ)/2 ∧ (1 : ℚ)/2 ≤ 1) := by
  have hmem : ((1 : ℚ)/2) ∈ normalize [0, 5, 10] := by norm_num [normalize]
  exact ⟨hmem, normalize_mem_unit_interval [0, 5, 10] hmem⟩

/-- C8: for every non-empty input list with `max_val > min_val`, `normalize`
preserves relative order (`values[i] ≤ values[j]` implies
`result[i] ≤ result[j]`), and every input element strictly between `min_val`
and `max_val` maps to an output strictly between 0 and 1. -/
theorem normalize_order (v : ℚ) (vs : List ℚ)
    (h : vs.foldl min v < vs.foldl max v) :
    (∀ i j (hi : i < (v :: vs).length) (hj : j < (v :: vs).length) (a b : ℚ),
        (v :: vs).get ⟨i, hi⟩ ≤ (v :: vs).get ⟨j, hj⟩ →
        (normalize (v :: vs))[i]? = some a →
        (normalize (v :: vs))[j]? = some b → a ≤ b) ∧
    (∀ i (hi : i < (v :: vs).length) (a : ℚ),
        vs.foldl min v < (v :: vs).get ⟨i, hi⟩ →
        (v :: vs).get ⟨i, hi⟩ < vs.foldl max v →
        (normalize (v :: vs))[i]? = some a → 0 < a ∧ a < 1) := by
  have hspan : 0 < vs.foldl max v - vs.foldl min v := sub_pos.mpr h
  constructor
  · intro i j hi hj a b hle ha hb
    rw [getElem?_normalize_spread v vs h i hi] at ha
    rw [getElem?_normalize_spread v vs h j hj] at hb
    rw [← Option.some.inj ha, ← Option.some.inj hb]
    exact (div_le_div_iff_of_pos_right hspan).mpr (sub_le_sub_right hle _)
  · intro i hi a hgt hlt ha
    rw [getElem?_normalize_spread v vs h i hi] at ha
    rw [← Option.some.inj ha]
    constructor
    · exact div_pos (sub_pos.mpr hgt) hspan
    · rw [div_lt_one hspan]
      exact sub_lt_sub_right hlt _

/-- Witness for C8 at input `[0, 5, 10]`, positions 1 and 2. -/
theorem normalize_order_witness :
    ([5, 10] : List ℚ).foldl min 0 < ([5, 10] : List ℚ).foldl max 0 ∧
    ((1 : ℚ)/2 ≤ 1 ∧ (0 < (1 : ℚ)/2 ∧ (1 : ℚ)/2 < 1)) := by
  have h : ([5, 10] : List ℚ).foldl min 0 < ([5, 10] : List ℚ).foldl max 0 := by
    decide
  have heval : normalize [(0 : ℚ), 5, 10] = [0, 1/2, 1] := by norm_num [normalize]
  obtain ⟨h1, h2⟩ := normalize_order 0 [5, 10] h
  refine ⟨h, ?_, ?_⟩
  · refine h1 1 2 (by decide) (by decide) (1/2) 1 (by decide) ?_ ?_
    · rw [heval]
      rfl
    · rw [heval]
      rfl
  · refine h2 1 (by decide) (1/2) (by decide) (by decide) ?_
    rw [heval]
    rfl

/-- C9: `normalize` is idempotent over exact arithmetic: applying it twice
gives the same result as applying it once. -/
theorem normalize_idempotent (values : List ℚ) :
    normalize (normalize values) = normalize values := by
  cases values with
  | nil => rfl
  | cons v vs =>
    by_cases h : vs.foldl max v = vs.foldl min v
    · rw [normalize_cons_const v vs h]
      simp only [List.map_cons]
      have hall : ∀ x ∈ vs.map (fun _ => (0 : ℚ)), x = 0 := by
        intro x hx
        rcases List.mem_map.mp hx with ⟨w, -, rfl⟩
        rfl
      rw [normalize_cons_const 0 (vs.map fun _ => (0 : ℚ))
        (by rw [foldl_max_of_all_eq _ 0 hall, foldl_min_of_all_eq _ 0 hall])]
      simp [List.map_map, Function.comp]
    · have hlt : vs.foldl min v < vs.foldl max v :=
        lt_of_le_of_ne (foldl_min_le_foldl_max vs v) (Ne.symm h)
      have hspan : 0 < vs.foldl max v - vs.foldl min v := sub_pos.mpr hlt
      have hmono : Monotone (fun x : ℚ =>
          (x - vs.foldl min v) / (vs.foldl max v - vs.foldl min v)) := by
        intro p q hpq
        exact (div_le_div_iff_of_pos_right hspan).mpr (sub_le_sub_right hpq _)
      rw [normalize_cons_spread v vs h]
      simp only [List.map_cons]
      have hmin' :
          ((vs.map fun x =>
              (x - vs.foldl min v) / (vs.foldl max v - vs.foldl min v)).foldl
            min ((v - vs.foldl min v) / (vs.foldl max v - vs.foldl min v))) =
            0 := by
        rw [map_foldl_min
            (fun x => (x - vs.foldl min v) / (vs.foldl max v - vs.foldl min v))
            (fun p q => hmono.map_min) vs v,
          sub_self, zero_div]
      have hmax' :
          ((vs.map fun x =>
              (x - vs.foldl min v) / (vs.foldl max v - vs.foldl min v)).foldl
            max ((v - vs.foldl min v) / (vs.foldl max v - vs.foldl min v))) =
            1 := by
        rw [map_foldl_max
            (fun x => (x - vs.foldl min v) / (vs.foldl max v - vs.foldl min v))
            (fun p q => hmono.map_max) vs v,
          div_self (sub_ne_zero.mpr (ne_of_gt hlt))]
      rw [normalize_cons_spread _ _ (by rw [hmax', hmin']; norm_num)]
      rw [hmin', hmax']
      have hid : (fun x : ℚ => (x - 0) / (1 - 0)) = id := by
        funext x
        simp
      rw [hid, List.map_id]

/-- C10: `normalize` is invariant under positive affine transformations over
exact arithmetic: for every `a > 0` and every `b`,
`normalize (map (fun v => a*v + b) values) = normalize values`. -/
theorem normalize_affine (values : List ℚ) (a b : ℚ) (ha : 0 < a) :
    normalize (values.map fun x => a * x + b) = normalize values := by
  cases values with
  | nil => rfl
  | cons v vs =>
    have hgmono : Monotone (fun x : ℚ => a * x + b) := by
      intro p q hpq
      exact add_le_add_right (mul_le_mul_of_nonneg_left hpq ha.le) b
    simp only [List.map_cons]
    have hmin' : (vs.map fun x => a * x + b).foldl min (a * v + b) =
        a * vs.foldl min v + b :=
      map_foldl_min (fun x => a * x + b) (fun p q => hgmono.map_min) vs v
    have hmax' : (vs.map fun x => a * x + b).foldl max (a * v + b) =
        a * vs.foldl max v + b :=
      map_foldl_max (fun x => a * x + b) (fun p q => hgmono.map_max) vs v
    by_cases h : vs.foldl max v = vs.foldl min v
    · have h' : (vs.map fun x => a * x + b).foldl max (a * v + b) =
          (vs.map fun x => a * x + b).foldl min (a * v + b) := by
        rw [hmin', hmax', h]
      rw [normalize_cons_const _ _ h', normalize_cons_const v vs h]
      simp [List.map_map, Function.comp_def, List.map_const']
    · have h' : (vs.map fun x => a * x + b).foldl max (a * v + b) ≠
          (vs.map fun x => a * x + b).foldl min (a * v + b) := by
        rw [hmin', hmax']
        intro hc
        exact h (mul_left_cancel₀ (ne_of_gt ha) (by linarith))
      rw [normalize_cons_spread _ _ h', normalize_cons_spread v vs h]
      rw [hmin', hmax']
      show ((v :: vs).map fun x => a * x + b).map _ = _
      rw [List.map_map]
      have hfun : ((fun x : ℚ =>
            (x - (a * vs.foldl min v + b)) /
              (a * vs.foldl max v + b - (a * vs.foldl min v + b))) ∘
          fun x : ℚ => a * x + b) =
          fun x : ℚ =>
            (x - vs.foldl min v) / (vs.foldl max v - vs.foldl min v) := by
        funext x
        simp only [Function.comp]
        have h1 : a * x + b - (a * vs.foldl min v + b) =
            a * (x - vs.foldl min v) := by ring
        have h2 : a * vs.foldl max v + b - (a * vs.foldl min v + b) =
            a * (vs.foldl max v - vs.foldl min v) := by ring
        rw [h1, h2, mul_div_mul_left _ _ (ne_of_gt ha)]
      rw [hfun]

/-- Witness for C10 at input `[0, 5, 10]` with `a = 2`, `b = 3`. -/
theorem normalize_affine_witness :
    (0 : ℚ) < 2 ∧
    normalize (([0, 5, 10] : List ℚ).map fun x => 2 * x + 3) =
      normalize [0, 5, 10] :=
  ⟨by norm_num, normalize_affine [0, 5, 10] 2 3 (by norm_num)⟩

end ReplyStack
